import Mathlib

/-!
# Verification of the CLEN text-scanning core

A shallow embedding of `src/clen.c` (the CLEN command-line length/statistics
tool).  C strings are modelled as `List Nat` of byte values (each `< 256`,
the terminating NUL is implicit: a list never contains the byte 0 unless
stated).  The ASCII classifiers from `<ctype.h>` in the "C" locale are
modelled explicitly; bytes `≥ 0x80` are non-letter / non-digit /
non-whitespace, matching the tool's ASCII-only semantics.

For `fastStrLen`, which reads memory in 64-bit chunks and may read past the
NUL terminator (within the final chunk), memory is modelled as an arbitrary
byte-valued function `Nat → Nat` and the string as a start address; the
loops are given explicit fuel, and correctness is proved for any fuel at
least the distance to the terminator.
-/

namespace Clen

/-- `isspace` from ctype.h, C locale: space, \t, \n, \v, \f, \r. -/
def isspaceB (c : Nat) : Bool := c == 32 || (9 ≤ c && c ≤ 13)

/-- `isalpha` from ctype.h, C locale: A–Z or a–z. -/
def isalphaB (c : Nat) : Bool := (65 ≤ c && c ≤ 90) || (97 ≤ c && c ≤ 122)

/-- `isdigit` from ctype.h: 0–9. -/
def isdigitB (c : Nat) : Bool := 48 ≤ c && c ≤ 57

/-- `isupper` from ctype.h, C locale: A–Z. -/
def isupperB (c : Nat) : Bool := 65 ≤ c && c ≤ 90

/-- `islower` from ctype.h, C locale: a–z. -/
def islowerB (c : Nat) : Bool := 97 ≤ c && c ≤ 122

/-- The byte values of the C string literal
`"!@#$%^&*()-_=+[]{}|;:'\",.<>?/\\~`"` used by `countSpecialSigns`. -/
def specialChars : List Nat :=
  [33, 64, 35, 36, 37, 94, 38, 42, 40, 41, 45, 95, 61, 43, 91, 93, 123, 125,
   124, 59, 58, 39, 34, 44, 46, 60, 62, 63, 47, 92, 126, 96]

/-- `countLetters` from clen.c: one forward pass, counting `isalpha` bytes. -/
def countLetters : List Nat → Nat
  | [] => 0
  | c :: rest => (if isalphaB c then 1 else 0) + countLetters rest

/-- `countNumbers` from clen.c: one forward pass, counting `isdigit` bytes. -/
def countNumbers : List Nat → Nat
  | [] => 0
  | c :: rest => (if isdigitB c then 1 else 0) + countNumbers rest

/-- `countSpecialSigns` from clen.c: one forward pass counting bytes found by
`strchr` in the fixed special-symbol string. -/
def countSpecialSigns : List Nat → Nat
  | [] => 0
  | c :: rest => (if specialChars.contains c then 1 else 0) + countSpecialSigns rest

/-- `countCases` from clen.c: returns `(uppercase count, lowercase count)`;
`isupper` is tested first, `islower` only in the else branch. -/
def countCases : List Nat → Nat × Nat
  | [] => (0, 0)
  | c :: rest =>
    let p := countCases rest
    if isupperB c then (p.1 + 1, p.2)
    else if islowerB c then (p.1, p.2 + 1)
    else p

/-- `countWords` from clen.c, inner loop: the boolean is the `inWord` flag. -/
def countWordsAux : List Nat → Bool → Nat
  | [], _ => 0
  | c :: rest, inWord =>
    if !isspaceB c then
      (if !inWord then 1 else 0) + countWordsAux rest true
    else
      countWordsAux rest false

/-- `countWords` from clen.c: `inWord` starts out 0. -/
def countWords (s : List Nat) : Nat := countWordsAux s false

/-- `countSentences` from clen.c: `.`, `?` and `!` each bump the count; a
single or double quote immediately after such a terminator is skipped. -/
def countSentences : List Nat → Nat
  | [] => 0
  | c :: rest =>
    if c == 46 || c == 63 || c == 33 then
      match rest with
      | c2 :: rest2 =>
        if c2 == 39 || c2 == 34 then 1 + countSentences rest2
        else 1 + countSentences (c2 :: rest2)
      | [] => 1
    else countSentences rest

/-- The inner scan of `countQuotes`: starting right after an opening quote
`q`, advance to the first occurrence of `q`; return the suffix after it,
or `none` if `q` does not occur (the NUL terminator was reached). -/
def findClose (q : Nat) : List Nat → Option (List Nat)
  | [] => none
  | c :: rest => if c == q then some rest else findClose q rest

/-- `countQuotes` from clen.c: on a `"` or `'`, search forward for the same
quote; if found, count one segment and resume after the closing quote,
otherwise resume at the next byte after the opener. -/
def countQuotes : List Nat → Nat
  | [] => 0
  | c :: rest =>
    if c == 34 || c == 39 then
      match h : findClose c rest with
      | some rest2 => 1 + countQuotes rest2
      | none => countQuotes rest
    else countQuotes rest
termination_by s => s.length
decreasing_by
  · have H : ∀ (l l2 : List Nat), findClose c l = some l2 → l2.length < l.length := by
      intro l
      induction l with
      | nil => intro l2 hh; simp [findClose] at hh
      | cons a r ihr =>
        intro l2 hh
        simp only [findClose] at hh
        by_cases hb : (a == c) = true
        · simp [hb] at hh
          subst hh
          simp
        · simp [hb] at hh
          exact Nat.lt_trans (ihr _ hh) (by simp)
    exact Nat.lt_trans (H rest rest2 h) (by simp)
  · simp
  · simp

/-! ## The fastStrLen memory model -/

/-- The constant `0x0101010101010101` from `fastStrLen`. -/
def lowOnes : Nat := 0x0101010101010101

/-- The constant `0x8080808080808080` from `fastStrLen`. -/
def highBits : Nat := 0x8080808080808080

/-- The zero-byte test `(chunk - 0x0101…01) & ~chunk & 0x8080…80` from
`fastStrLen`, in 64-bit modular arithmetic over `Nat` (for `x < 2^64`,
`x ^^^ (2^64 - 1)` is the 64-bit complement and adding `2^64 - lowOnes`
modulo `2^64` is the 64-bit subtraction of `lowOnes`). -/
def hasZeroByte (x : Nat) : Bool :=
  decide ((((x + (2 ^ 64 - lowOnes)) % 2 ^ 64) &&& (x ^^^ (2 ^ 64 - 1)) &&& highBits) ≠ 0)

/-- The 64-bit little-endian load `*wordPtr` of the eight bytes at `p`. -/
def readWord (mem : Nat → Nat) (p : Nat) : Nat :=
  mem p + 256 * (mem (p + 1) + 256 * (mem (p + 2) + 256 * (mem (p + 3) +
    256 * (mem (p + 4) + 256 * (mem (p + 5) + 256 * (mem (p + 6) +
    256 * mem (p + 7)))))))

/-- Byte `k` of the natural number `x` (little-endian). -/
def byteOf (x k : Nat) : Nat := x / 2 ^ (8 * k) % 256

/-- A plain byte-at-a-time scan for the first NUL at or after `p`
(the loop `while (*str) str++;`), fuelled; returns the address found. -/
def scanZero (mem : Nat → Nat) : Nat → Nat → Option Nat
  | _, 0 => none
  | p, fuel + 1 => if mem p = 0 then some p else scanZero mem (p + 1) fuel

/-- The aligned word loop of `fastStrLen`: read a 64-bit chunk; if it has a
zero byte, byte-scan from the chunk start for the terminator and return the
offset from `start`; otherwise advance 8 bytes. -/
def wordLoop (mem : Nat → Nat) (start : Nat) : Nat → Nat → Option Nat
  | _, 0 => none
  | p, fuel + 1 =>
    if hasZeroByte (readWord mem p) then
      (scanZero mem p (fuel + 1)).map (fun q => q - start)
    else wordLoop mem start (p + 8) fuel

/-- `fastStrLen` from clen.c: byte-scan up to the first 8-byte-aligned
address (returning early on a NUL), then the 64-bit word loop. -/
def fastStrLenAux (mem : Nat → Nat) (start : Nat) : Nat → Nat → Option Nat
  | _, 0 => none
  | p, fuel + 1 =>
    if p % 8 = 0 then wordLoop mem start p (fuel + 1)
    else if mem p = 0 then some (p - start)
    else fastStrLenAux mem start (p + 1) fuel

/-- Memory holding the bytes of `l` starting at address `a`, with zero
bytes everywhere after them (so the string is NUL-terminated at `a + l.length`
provided `l` itself has no zero byte). -/
def memOf (l : List Nat) (a : Nat) (i : Nat) : Nat :=
  if h : a ≤ i ∧ i - a < l.length then l.get ⟨i - a, h.2⟩ else 0

/-- `fastStrLen` applied to the C string with bytes `l` placed at address
`a`, with enough fuel to reach the terminator. -/
def fastStrLen (l : List Nat) (a : Nat) : Option Nat :=
  fastStrLenAux (memOf l a) a a (l.length + 17)

/-- Specification-side definition (from the spec, not the source): the naive
one-byte-at-a-time null-terminator search, returning the number of bytes
before the first NUL at or after `start`. -/
def naiveStrLen (mem : Nat → Nat) (start fuel : Nat) : Option Nat :=
  (scanZero mem start fuel).map (fun q => q - start)

/-! ## The argument-report / CLI model -/

/-- What the filesystem knows about one existing path: whether `fopen`
succeeds on it and, if so, the content size `ftell` reports. -/
structure FileEntry where
  openable : Bool
  size : Nat

/-- The filesystem as seen by clen: a partial map from path bytes to
entries.  `none` means the path does not exist. -/
def FileSystem : Type := List Nat → Option FileEntry

/-- `isFilePath` from clen.c: `access(path, F_OK) == 0`, i.e. bare
existence — directories and unreadable files qualify. -/
def isFilePath (fs : FileSystem) (path : List Nat) : Bool :=
  (fs path).isSome

/-- `getFileContentLength` from clen.c: `fopen` the path; on failure return
0, otherwise seek to the end and return the position. -/
def getFileContentLength (fs : FileSystem) (path : List Nat) : Nat :=
  match fs path with
  | some e => if e.openable then e.size else 0
  | none => 0

/-- The per-argument length computation in `main`:
`length = (isFile && countFileContentFlag) ? getFileContentLength(arg) : fastStrLen(arg)`.
The argument's bytes sit at address `addr`. -/
def effectiveLength (fs : FileSystem) (countFileContentFlag : Bool)
    (arg : List Nat) (addr : Nat) : Nat :=
  if isFilePath fs arg && countFileContentFlag then getFileContentLength fs arg
  else (fastStrLen arg addr).getD 0

/-- The nine metric flags of `main`, all initially 0. -/
structure Flags where
  countLettersFlag : Bool := false
  countCasesFlag : Bool := false
  countNumbersFlag : Bool := false
  countSentencesFlag : Bool := false
  countSpecialFlag : Bool := false
  countFileContentFlag : Bool := false
  countWordsFlag : Bool := false
  countBytesFlag : Bool := false
  countQuotesFlag : Bool := false
deriving DecidableEq

/-- Outcome of the option-parsing loop in `main`. -/
inductive ParseResult where
  | help : ParseResult
  | unknown : List Nat → ParseResult
  | ok : Flags → List (List Nat) → ParseResult
deriving DecidableEq

/-- The bytes of `--count-letters`. -/
def optCountLetters : List Nat :=
  [45, 45, 99, 111, 117, 110, 116, 45, 108, 101, 116, 116, 101, 114, 115]

/-- The bytes of `--count-cases`. -/
def optCountCases : List Nat :=
  [45, 45, 99, 111, 117, 110, 116, 45, 99, 97, 115, 101, 115]

/-- The bytes of `--count-numbers`. -/
def optCountNumbers : List Nat :=
  [45, 45, 99, 111, 117, 110, 116, 45, 110, 117, 109, 98, 101, 114, 115]

/-- The bytes of `--count-sentences`. -/
def optCountSentences : List Nat :=
  [45, 45, 99, 111, 117, 110, 116, 45, 115, 101, 110, 116, 101, 110, 99, 101, 115]

/-- The bytes of `--count-special-signs`. -/
def optCountSpecialSigns : List Nat :=
  [45, 45, 99, 111, 117, 110, 116, 45, 115, 112, 101, 99, 105, 97, 108, 45,
   115, 105, 103, 110, 115]

/-- The bytes of `--count-filecontent`. -/
def optCountFileContent : List Nat :=
  [45, 45, 99, 111, 117, 110, 116, 45, 102, 105, 108, 101, 99, 111, 110,
   116, 101, 110, 116]

/-- The bytes of `--count-words`. -/
def optCountWords : List Nat :=
  [45, 45, 99, 111, 117, 110, 116, 45, 119, 111, 114, 100, 115]

/-- The bytes of `--count-bytes`. -/
def optCountBytes : List Nat :=
  [45, 45, 99, 111, 117, 110, 116, 45, 98, 121, 116, 101, 115]

/-- The bytes of `--count-quotes`. -/
def optCountQuotes : List Nat :=
  [45, 45, 99, 111, 117, 110, 116, 45, 113, 117, 111, 116, 101, 115]

/-- The bytes of `--help`. -/
def optHelp : List Nat := [45, 45, 104, 101, 108, 112]

/-- The bytes of `--h`. -/
def optH : List Nat := [45, 45, 104]

/-- `strncmp(arg, "--", 2) == 0`: the argument begins with two dashes
(byte 45). -/
def startsWithDashDash : List Nat → Bool
  | 45 :: 45 :: _ => true
  | _ => false

/-- The option-parsing loop of `main`: arguments starting with `--` are
matched against the known options (in source order) until the first
non-option argument; `--help`/`--h` short-circuits, anything else starting
with `--` is an error. -/
def parseArgs : List (List Nat) → Flags → ParseResult
  | [], fl => .ok fl []
  | a :: rest, fl =>
    if startsWithDashDash a then
      if a = optCountLetters then parseArgs rest { fl with countLettersFlag := true }
      else if a = optCountCases then parseArgs rest { fl with countCasesFlag := true }
      else if a = optCountNumbers then parseArgs rest { fl with countNumbersFlag := true }
      else if a = optCountSentences then parseArgs rest { fl with countSentencesFlag := true }
      else if a = optCountSpecialSigns then parseArgs rest { fl with countSpecialFlag := true }
      else if a = optCountFileContent then parseArgs rest { fl with countFileContentFlag := true }
      else if a = optCountWords then parseArgs rest { fl with countWordsFlag := true }
      else if a = optCountBytes then parseArgs rest { fl with countBytesFlag := true }
      else if a = optCountQuotes then parseArgs rest { fl with countQuotesFlag := true }
      else if a = optHelp ∨ a = optH then .help
      else .unknown a
    else .ok fl (a :: rest)

/-- The observable outcome of one invocation: the exit status, whether the
help text was printed, and how many per-argument reports were produced. -/
structure MainOutcome where
  exitCode : Nat
  helpShown : Bool
  reportCount : Nat
deriving DecidableEq

/-- The control flow of `main` on the arguments after the program name:
no arguments at all → help, exit 0; `--help` during parsing → help, exit 0;
unknown option → exit 1, nothing processed; otherwise exit 0 and one report
per remaining non-option argument (help is NOT shown even when there are
zero of them — the code only prints the "N Arguments given" banner). -/
def runMain (args : List (List Nat)) : MainOutcome :=
  if args.isEmpty then ⟨0, true, 0⟩
  else
    match parseArgs args {} with
    | .help => ⟨0, true, 0⟩
    | .unknown _ => ⟨1, false, 0⟩
    | .ok _ rest => ⟨0, false, rest.length⟩

/-- A filesystem in which every path exists but no path can be opened for
reading (e.g. all entries are permission-protected). -/
def unopenableFs : FileSystem := fun _ => some ⟨false, 0⟩

/-! ## Specification-side definitions and concrete inputs -/

/-- Specification-side definition: the maximal runs of non-whitespace bytes
of `s` are exactly the non-empty pieces obtained by splitting `s` at every
whitespace byte; this counts them. -/
def maximalRuns (s : List Nat) : Nat :=
  ((s.splitOnP (fun c => isspaceB c)).filter (fun r => !r.isEmpty)).length

/-- A sentence terminator byte: `.` (46), `?` (63) or `!` (33). -/
def isTerm (c : Nat) : Bool := c == 46 || c == 63 || c == 33

/-- A quote byte: `'` (39) or `"` (34). -/
def isQuote (c : Nat) : Bool := c == 34 || c == 39

/-- How many of the three categories (letter, digit, special symbol) a byte
falls into. -/
def categoryCount (c : Nat) : Nat :=
  (if isalphaB c then 1 else 0) + (if isdigitB c then 1 else 0) +
    (if specialChars.contains c then 1 else 0)

/-- The bytes of `Hello. World?`. -/
def helloWorldBytes : List Nat :=
  [72, 101, 108, 108, 111, 46, 32, 87, 111, 114, 108, 100, 63]

/-- The 16 bytes of `"Stop!" he said.` (with literal double quotes). -/
def stopHeSaidBytes : List Nat :=
  [34, 83, 116, 111, 112, 33, 34, 32, 104, 101, 32, 115, 97, 105, 100, 46]

/-- The bytes of `He said "hi" and 'bye'`. -/
def heSaidBytes : List Nat :=
  [72, 101, 32, 115, 97, 105, 100, 32, 34, 104, 105, 34, 32, 97, 110, 100,
   32, 39, 98, 121, 101, 39]

/-- The bytes of `unterminated "oops`. -/
def unterminatedBytes : List Nat :=
  [117, 110, 116, 101, 114, 109, 105, 110, 97, 116, 101, 100, 32, 34, 111,
   111, 112, 115]

/-! ## Word counting -/

theorem countWordsAux_splitOnP (s : List Nat) :
    countWordsAux s false
      = ((s.splitOnP (fun c => isspaceB c)).filter (fun r => !r.isEmpty)).length ∧
    countWordsAux s true
      = ((s.splitOnP (fun c => isspaceB c)).tail.filter (fun r => !r.isEmpty)).length := by
  induction s with
  | nil => simp [countWordsAux, List.splitOnP_nil]
  | cons c rest ih =>
    by_cases hc : isspaceB c = true
    · constructor
      · simp [countWordsAux, hc, List.splitOnP_cons, ih.1]
      · simp [countWordsAux, hc, List.splitOnP_cons, ih.1]
    · obtain ⟨h, t, hP⟩ : ∃ h t, rest.splitOnP (fun c => isspaceB c) = h :: t := by
        rcases hE : rest.splitOnP (fun c => isspaceB c) with _ | ⟨h, t⟩
        · exact absurd hE (List.splitOnP_ne_nil _ rest)
        · exact ⟨h, t, rfl⟩
      have h2 := ih.2
      rw [hP] at h2
      constructor
      · simp [countWordsAux, hc, List.splitOnP_cons, hP, h2]
        omega
      · simp [countWordsAux, hc, List.splitOnP_cons, hP, h2]

theorem countWords_eq_maximalRuns (s : List Nat) :
    countWords s = maximalRuns s :=
  (countWordsAux_splitOnP s).1

theorem countWordsAux_all_space :
    ∀ (s : List Nat), (∀ c ∈ s, isspaceB c = true) → ∀ b, countWordsAux s b = 0 := by
  intro s
  induction s with
  | nil => intro _ b; rfl
  | cons c rest ih =>
    intro h b
    have hc : isspaceB c = true := h c (by simp)
    simp [countWordsAux, hc]
    exact ih (fun c' hc' => h c' (by simp [hc'])) false

/-! ## Sentence counting -/

theorem countSentences_cons_nonterm {c : Nat} (rest : List Nat)
    (h : isTerm c = false) : countSentences (c :: rest) = countSentences rest := by
  have h' : (c == 46 || c == 63 || c == 33) = false := h
  match rest with
  | [] => simp [countSentences, h']
  | c2 :: rest2 => simp [countSentences, h']

theorem countSentences_single_term {c : Nat} (h : isTerm c = true) :
    countSentences [c] = 1 := by
  have h' : (c == 46 || c == 63 || c == 33) = true := h
  simp only [countSentences, h']
  simp

theorem countSentences_term_quote {c c2 : Nat} (rest2 : List Nat)
    (h : isTerm c = true) (hq : (c2 == 39 || c2 == 34) = true) :
    countSentences (c :: c2 :: rest2) = 1 + countSentences rest2 := by
  have h' : (c == 46 || c == 63 || c == 33) = true := h
  simp only [countSentences, h', hq]
  simp

theorem countSentences_term_nonquote {c c2 : Nat} (rest2 : List Nat)
    (h : isTerm c = true) (hq : (c2 == 39 || c2 == 34) = false) :
    countSentences (c :: c2 :: rest2) = 1 + countSentences (c2 :: rest2) := by
  have h' : (c == 46 || c == 63 || c == 33) = true := h
  simp only [countSentences, h', hq]
  simp

theorem countP_isTerm_cons (c : Nat) (rest : List Nat) :
    List.countP (fun x => isTerm x) (c :: rest)
      = (if isTerm c then 1 else 0) + List.countP (fun x => isTerm x) rest := by
  rw [List.countP_cons]
  by_cases h : isTerm c = true <;> simp [h] <;> omega

theorem countSentences_eq_countP :
    ∀ s : List Nat, countSentences s = s.countP (fun c => isTerm c) := by
  suffices H : ∀ (n : Nat) (s : List Nat), s.length ≤ n →
      countSentences s = s.countP (fun c => isTerm c) by
    exact fun s => H s.length s le_rfl
  intro n
  induction n with
  | zero =>
    intro s hs
    match s with
    | [] => simp [countSentences]
  | succ n ih =>
    intro s hn
    match s with
    | [] => simp [countSentences]
    | c :: rest =>
      by_cases hc : isTerm c = true
      · match rest with
        | [] =>
          rw [countSentences_single_term hc, countP_isTerm_cons]
          simp [hc]
        | c2 :: rest2 =>
          by_cases hq : (c2 == 39 || c2 == 34) = true
          · have h2 : countSentences rest2 = rest2.countP (fun c => isTerm c) :=
              ih rest2 (by simp at hn ⊢; omega)
            have hq2 : isTerm c2 = false := by
              revert hq
              simp [isTerm]
              omega
            rw [countSentences_term_quote rest2 hc hq, h2,
              countP_isTerm_cons, countP_isTerm_cons]
            simp [hc, hq2]
          · have h2 : countSentences (c2 :: rest2)
                = (c2 :: rest2).countP (fun c => isTerm c) :=
              ih (c2 :: rest2) (by simp at hn ⊢; omega)
            rw [countSentences_term_nonquote rest2 hc (by
              revert hq; cases hb : (c2 == 39 || c2 == 34) <;> simp), h2,
              countP_isTerm_cons, countP_isTerm_cons]
            by_cases h3 : isTerm c2 = true <;> simp [h3, hc] <;> omega
      · have h2 : countSentences rest = rest.countP (fun c => isTerm c) :=
          ih rest (by simp at hn; omega)
        rw [countSentences_cons_nonterm rest (by
          cases hb : isTerm c
          · rfl
          · exact absurd hb hc), h2, countP_isTerm_cons]
        have hc' : isTerm c = false := by
          cases hb : isTerm c
          · rfl
          · exact absurd hb hc
        simp [hc']

/-! ## Character categories -/

theorem mem_specialChars_bounds {c : Nat} (h : c ∈ specialChars) :
    (33 ≤ c ∧ c ≤ 47) ∨ (58 ≤ c ∧ c ≤ 64) ∨ (91 ≤ c ∧ c ≤ 96) ∨
      (123 ≤ c ∧ c ≤ 126) := by
  simp [specialChars] at h
  omega

theorem categoryCount_le_one (c : Nat) : categoryCount c ≤ 1 := by
  unfold categoryCount
  by_cases hs : c ∈ specialChars
  · have hb := mem_specialChars_bounds hs
    have ha : isalphaB c = false := by
      simp [isalphaB]; omega
    have hd : isdigitB c = false := by
      simp [isdigitB]; omega
    simp [ha, hd, hs]
  · by_cases ha : isalphaB c = true
    · have hd : isdigitB c = false := by
        revert ha; simp [isalphaB, isdigitB]; omega
      simp [ha, hd, hs]
    · simp [ha, hs]
      split <;> simp

theorem three_counts_eq (s : List Nat) :
    countLetters s + countNumbers s + countSpecialSigns s
      = (s.map categoryCount).sum := by
  induction s with
  | nil => rfl
  | cons c rest ih =>
    simp only [countLetters, countNumbers, countSpecialSigns, List.map_cons,
      List.sum_cons, categoryCount]
    omega

theorem sum_le_length_of_le_one :
    ∀ l : List Nat, (∀ x ∈ l, x ≤ 1) →
      l.sum ≤ l.length ∧ (l.sum = l.length ↔ ∀ x ∈ l, x = 1) := by
  intro l
  induction l with
  | nil => simp
  | cons x rest ih =>
    intro h
    have hx := h x (by simp)
    have ihr := ih (fun y hy => h y (by simp [hy]))
    simp only [List.sum_cons, List.length_cons, List.mem_cons]
    constructor
    · omega
    · constructor
      · intro he y hy
        rcases hy with rfl | hy
        · omega
        · have hsum : rest.sum = rest.length := by omega
          exact (ihr.2.mp hsum) y hy
      · intro hall
        have hx1 : x = 1 := hall x (Or.inl rfl)
        have hsum : rest.sum = rest.length := ihr.2.mpr (fun y hy => hall y (Or.inr hy))
        omega

theorem countCases_add_eq_countLetters (s : List Nat) :
    (countCases s).1 + (countCases s).2 = countLetters s := by
  induction s with
  | nil => rfl
  | cons c rest ih =>
    have halpha : isalphaB c = (isupperB c || islowerB c) := by
      simp [isalphaB, isupperB, islowerB]
    by_cases hu : isupperB c = true
    · simp [countCases, countLetters, hu, halpha, ih]
      omega
    · by_cases hl : islowerB c = true
      · simp [countCases, countLetters, hu, hl, halpha, ih]
        omega
      · simp [countCases, countLetters, hu, hl, halpha, ih]

/-! ## Quote counting -/

theorem findClose_of_not_mem {q : Nat} :
    ∀ {l : List Nat}, q ∉ l → findClose q l = none := by
  intro l
  induction l with
  | nil => intro _; rfl
  | cons c rest ih =>
    intro h
    have hc : (c == q) = false := by
      simp only [List.mem_cons] at h
      simp
      omega
    simp [findClose, hc]
    exact ih (fun hm => h (List.mem_cons_of_mem c hm))

theorem findClose_append {q : Nat} (post : List Nat) :
    ∀ (pre : List Nat), q ∉ pre → findClose q (pre ++ q :: post) = some post := by
  intro pre
  induction pre with
  | nil => intro _; simp [findClose]
  | cons c pre' ih =>
    intro h
    have hc : (c == q) = false := by
      simp only [List.mem_cons] at h
      simp
      omega
    simp only [List.cons_append, findClose, hc]
    simp
    exact ih (fun hm => h (List.mem_cons_of_mem c hm))

theorem countQuotes_nil : countQuotes [] = 0 := by
  rw [countQuotes]

theorem countQuotes_cons_nonquote {c : Nat} (rest : List Nat)
    (h : isQuote c = false) : countQuotes (c :: rest) = countQuotes rest := by
  have h' : (c == 34 || c == 39) = false := h
  rw [countQuotes]
  simp [h']

theorem countQuotes_cons_found {c : Nat} {rest rest2 : List Nat}
    (hc : isQuote c = true) (h : findClose c rest = some rest2) :
    countQuotes (c :: rest) = 1 + countQuotes rest2 := by
  have hc' : (c == 34 || c == 39) = true := hc
  rw [countQuotes]
  simp only [hc', if_true]
  split
  · rename_i r2 heq
    rw [h] at heq
    cases heq
    rfl
  · rename_i heq
    rw [h] at heq
    cases heq

theorem countQuotes_cons_none {c : Nat} {rest : List Nat}
    (hc : isQuote c = true) (h : findClose c rest = none) :
    countQuotes (c :: rest) = countQuotes rest := by
  have hc' : (c == 34 || c == 39) = true := hc
  rw [countQuotes]
  simp only [hc', if_true]
  split
  · rename_i r2 heq
    rw [h] at heq
    cases heq
  · rfl

theorem countQuotes_adjacent_pair {q : Nat} (v : List Nat) (hq : isQuote q = true) :
    countQuotes (q :: q :: v) = 1 + countQuotes v := by
  have hfind : findClose q (q :: v) = some v := by
    simp [findClose]
  exact countQuotes_cons_found hq hfind

theorem countQuotes_pos_of_adjacent {q : Nat} (hq : isQuote q = true) :
    ∀ (u v : List Nat), 1 ≤ countQuotes (u ++ q :: q :: v) := by
  intro u
  induction u with
  | nil =>
    intro v
    rw [List.nil_append, countQuotes_adjacent_pair v hq]
    omega
  | cons c u' ih =>
    intro v
    rw [List.cons_append]
    by_cases hc : isQuote c = true
    · rcases hfind : findClose c (u' ++ q :: q :: v) with _ | r2
      · rw [countQuotes_cons_none hc hfind]
        exact ih v
      · rw [countQuotes_cons_found hc hfind]
        omega
    · rw [countQuotes_cons_nonquote _ (by
        cases hb : isQuote c
        · rfl
        · exact absurd hb hc)]
      exact ih v

/-! ## fastStrLen correctness -/

theorem hasZeroByte_of_testBit {x i : Nat}
    (h : Nat.testBit ((((x + (2 ^ 64 - lowOnes)) % 2 ^ 64) &&&
      (x ^^^ (2 ^ 64 - 1)) &&& highBits)) i = true) :
    hasZeroByte x = true := by
  unfold hasZeroByte
  apply decide_eq_true
  intro hT
  rw [hT] at h
  simp [Nat.zero_testBit] at h

/-- The zero-byte trick never misses: if byte `k` of `x` is zero (`k < 8`),
the detection expression is nonzero.  (The borrow into byte `k` of
`x - 0x0101…01` is at most 1, so that byte of the difference is 254 or 255
and its high bit is set; the complement's high bit is set since byte `k`
of `x` is zero.) -/
theorem hasZeroByte_of_byte_zero {x : Nat} {k : Nat} (hk : k < 8)
    (h0 : byteOf x k = 0) : hasZeroByte x = true := by
  apply hasZeroByte_of_testBit (i := 8 * k + 7)
  rw [Nat.testBit_land, Nat.testBit_land, Nat.testBit_xor]
  have hxbit : Nat.testBit x (8 * k + 7) = false := by
    rw [Nat.testBit_to_div_mod]
    simp only [byteOf] at h0
    apply decide_eq_false
    interval_cases k <;> (norm_num at h0 ⊢; omega)
  have hAbit : Nat.testBit ((x + (2 ^ 64 - lowOnes)) % 2 ^ 64) (8 * k + 7) = true := by
    rw [Nat.testBit_to_div_mod]
    apply decide_eq_true
    simp only [byteOf] at h0
    simp only [lowOnes]
    interval_cases k <;> (norm_num at h0 ⊢; omega)
  have hMbit : Nat.testBit (2 ^ 64 - 1) (8 * k + 7) = true := by
    interval_cases k <;> decide
  have hHbit : Nat.testBit highBits (8 * k + 7) = true := by
    unfold highBits
    interval_cases k <;> decide
  rw [hAbit, hxbit, hMbit, hHbit]
  rfl

theorem byteOf_readWord (mem : Nat → Nat) (hm : ∀ i, mem i < 256) (p : Nat)
    {k : Nat} (hk : k < 8) : byteOf (readWord mem p) k = mem (p + k) := by
  have h0 := hm p
  have h1 := hm (p + 1)
  have h2 := hm (p + 2)
  have h3 := hm (p + 3)
  have h4 := hm (p + 4)
  have h5 := hm (p + 5)
  have h6 := hm (p + 6)
  have h7 := hm (p + 7)
  simp only [readWord, byteOf]
  interval_cases k <;> (norm_num; omega)

theorem scanZero_correct (mem : Nat → Nat) :
    ∀ (fuel n p : Nat), mem (p + n) = 0 → (∀ m, m < n → mem (p + m) ≠ 0) →
      n + 1 ≤ fuel → scanZero mem p fuel = some (p + n) := by
  intro fuel
  induction fuel with
  | zero => intro n p _ _ hf; omega
  | succ fuel ih =>
    intro n p hz hnz hf
    by_cases hp : mem p = 0
    · have hn : n = 0 := by
        by_contra hne
        exact hnz 0 (by omega) (by simpa using hp)
      subst hn
      simp [scanZero, hp]
    · match n with
      | 0 => exact absurd (by simpa using hz) hp
      | n + 1 =>
        have := ih n (p + 1)
          (by rw [show p + 1 + n = p + (n + 1) by omega]; exact hz)
          (fun m hm => by
            rw [show p + 1 + m = p + (m + 1) by omega]
            exact hnz (m + 1) (by omega))
          (by omega)
        simp only [scanZero, hp, if_false]
        rw [this]
        congr 1
        omega

theorem wordLoop_correct (mem : Nat → Nat) (hm : ∀ i, mem i < 256)
    (start z : Nat) (hz : mem z = 0)
    (hmin : ∀ q, start ≤ q → q < z → mem q ≠ 0) :
    ∀ (fuel p : Nat), start ≤ p → p ≤ z → z - p + 1 ≤ fuel →
      wordLoop mem start p fuel = some (z - start) := by
  intro fuel
  induction fuel with
  | zero => intro p _ _ hf; omega
  | succ fuel ih =>
    intro p hsp hpz hf
    by_cases hdet : hasZeroByte (readWord mem p) = true
    · have hscan : scanZero mem p (fuel + 1) = some (p + (z - p)) :=
        scanZero_correct mem (fuel + 1) (z - p) p
          (by rw [show p + (z - p) = z by omega]; exact hz)
          (fun m hmlt => hmin (p + m) (by omega) (by omega))
          (by omega)
      have hzz : p + (z - p) = z := by omega
      rw [hzz] at hscan
      simp only [wordLoop, hdet, if_true, hscan]
      rfl
    · have hfar : p + 8 ≤ z := by
        by_contra hclose
        have hzp : z - p < 8 := by omega
        have : byteOf (readWord mem p) (z - p) = 0 := by
          rw [byteOf_readWord mem hm p hzp, show p + (z - p) = z by omega]
          exact hz
        exact hdet (hasZeroByte_of_byte_zero hzp this)
      have := ih (p + 8) (by omega) (by omega) (by omega)
      simp only [wordLoop, hdet, if_false]
      simpa using this

theorem fastStrLenAux_correct (mem : Nat → Nat) (hm : ∀ i, mem i < 256)
    (start z : Nat) (hz : mem z = 0)
    (hmin : ∀ q, start ≤ q → q < z → mem q ≠ 0) :
    ∀ (fuel p : Nat), start ≤ p → p ≤ z → z - p + 1 ≤ fuel →
      fastStrLenAux mem start p fuel = some (z - start) := by
  intro fuel
  induction fuel with
  | zero => intro p _ _ hf; omega
  | succ fuel ih =>
    intro p hsp hpz hf
    by_cases hal : p % 8 = 0
    · simp only [fastStrLenAux, hal, if_true]
      exact wordLoop_correct mem hm start z hz hmin (fuel + 1) p hsp hpz (by omega)
    · by_cases hp : mem p = 0
      · have hpzeq : p = z := by
          by_contra hne
          exact hmin p hsp (by omega) hp
      -- p = z: the unaligned byte scan hits the terminator
        subst hpzeq
        simp [fastStrLenAux, hal, hp]
      · have hplt : p < z := by
          by_contra hge
          have : p = z := by omega
          subst this
          exact hp hz
        have := ih (p + 1) (by omega) (by omega) (by omega)
        simp only [fastStrLenAux, hal, if_false, hp]
        simpa using this

theorem memOf_lt (l : List Nat) (a : Nat) (hl : ∀ c ∈ l, c < 256) :
    ∀ i, memOf l a i < 256 := by
  intro i
  unfold memOf
  split
  · rename_i h
    exact hl _ (l.get_mem _ _)
  · omega

theorem memOf_terminator (l : List Nat) (a : Nat) :
    memOf l a (a + l.length) = 0 := by
  unfold memOf
  split
  · rename_i h
    omega
  · rfl

theorem memOf_nonzero (l : List Nat) (a : Nat) (hl : ∀ c ∈ l, 0 < c) :
    ∀ q, a ≤ q → q < a + l.length → memOf l a q ≠ 0 := by
  intro q hq1 hq2
  unfold memOf
  split
  · rename_i h
    have := hl _ (l.get_mem _ h.2)
    omega
  · rename_i h
    exact (h ⟨hq1, by omega⟩).elim

theorem fastStrLen_eq_length (l : List Nat) (a : Nat)
    (hl : ∀ c ∈ l, 0 < c ∧ c < 256) :
    fastStrLen l a = some l.length := by
  unfold fastStrLen
  have h := fastStrLenAux_correct (memOf l a)
    (memOf_lt l a (fun c hc => (hl c hc).2)) a (a + l.length)
    (memOf_terminator l a)
    (memOf_nonzero l a (fun c hc => (hl c hc).1))
    (l.length + 17) a le_rfl (by omega) (by omega)
  rw [h]
  congr 1
  omega

theorem naiveStrLen_eq_length (l : List Nat) (a fuel : Nat)
    (hl : ∀ c ∈ l, 0 < c ∧ c < 256) (hf : l.length + 1 ≤ fuel) :
    naiveStrLen (memOf l a) a fuel = some l.length := by
  unfold naiveStrLen
  have h := scanZero_correct (memOf l a) fuel l.length a
    (memOf_terminator l a)
    (fun m hm => memOf_nonzero l a (fun c hc => (hl c hc).1) (a + m)
      (by omega) (by omega))
    hf
  rw [h]
  simp

/-! ## Claims -/

/-- C1 (counterexample): with the file-content metric enabled, an argument
naming a path that exists but cannot be opened is NOT treated as plain
text: `getFileContentLength` returns 0 when `fopen` fails, so the reported
effective length is 0, not the 1-byte length of the argument text `a`. -/
theorem claim_C1_counterexample :
    effectiveLength unopenableFs true [97] 0 = 0 ∧
    ([97] : List Nat).length = 1 ∧
    effectiveLength unopenableFs true [97] 0 ≠ ([97] : List Nat).length := by
  refine ⟨by decide, by decide, by decide⟩

/-- C1 (amended): the effective length equals `getFileContentLength`'s
result whenever the path exists and the file-content metric is enabled —
the file's content length when it can be opened, and 0 (the `fopen`-failure
value) when it cannot — and equals the raw byte length of the argument text
otherwise. -/
theorem claim_C1_amended_effective_length :
    ∀ (fs : FileSystem) (flag : Bool) (arg : List Nat) (addr : Nat),
      (∀ c ∈ arg, 0 < c ∧ c < 256) →
      ((isFilePath fs arg = false ∨ flag = false) →
        effectiveLength fs flag arg addr = arg.length) ∧
      (∀ e : FileEntry, fs arg = some e → flag = true → e.openable = true →
        effectiveLength fs flag arg addr = e.size) ∧
      (∀ e : FileEntry, fs arg = some e → flag = true → e.openable = false →
        effectiveLength fs flag arg addr = 0) := by
  intro fs flag arg addr hl
  refine ⟨?_, ?_, ?_⟩
  · intro h
    unfold effectiveLength
    have hc : (isFilePath fs arg && flag) = false := by
      rcases h with h | h <;> simp [h]
    rw [hc]
    simp [fastStrLen_eq_length arg addr hl]
  · intro e he hflag hop
    unfold effectiveLength
    have hf : isFilePath fs arg = true := by simp [isFilePath, he]
    rw [hf, hflag]
    simp [getFileContentLength, he, hop]
  · intro e he hflag hop
    unfold effectiveLength
    have hf : isFilePath fs arg = true := by simp [isFilePath, he]
    rw [hf, hflag]
    simp [getFileContentLength, he, hop]

theorem claim_C1_witness :
    effectiveLength unopenableFs true [97] 0 = 0 :=
  (claim_C1_amended_effective_length unopenableFs true [97] 0
    (by decide)).2.2 ⟨false, 0⟩ rfl rfl rfl

/-- C2: `countWords` returns the number of maximal runs of non-whitespace
bytes (the non-empty pieces of the whitespace split); in particular it
returns 0 on the empty string and on any all-whitespace string. -/
theorem claim_C2_word_count :
    (∀ s : List Nat, countWords s = maximalRuns s) ∧
    countWords [] = 0 ∧
    (∀ s : List Nat, (∀ c ∈ s, isspaceB c = true) → countWords s = 0) := by
  refine ⟨countWords_eq_maximalRuns, rfl, ?_⟩
  intro s hs
  exact countWordsAux_all_space s hs false

theorem claim_C2_witness :
    countWords [32, 9, 10] = 0 ∧
    countWords [104, 105, 32, 121, 111] = maximalRuns [104, 105, 32, 121, 111] :=
  ⟨claim_C2_word_count.2.2 [32, 9, 10] (by decide),
   claim_C2_word_count.1 [104, 105, 32, 121, 111]⟩

/-- C3: `countSentences` counts exactly the `.`/`?`/`!` bytes (a quote
directly after a terminator is consumed with it, and quotes are never
terminators, so the count is unchanged); a terminator followed by a quote
counts once, consecutive terminators count separately, a final terminator
counts, and the two concrete examples give 2. -/
theorem claim_C3_sentence_count :
    (∀ s : List Nat, countSentences s = s.countP (fun c => isTerm c)) ∧
    (∀ (t q : Nat) (rest : List Nat), isTerm t = true → isQuote q = true →
      countSentences (t :: q :: rest) = 1 + countSentences rest) ∧
    (∀ (t1 t2 : Nat) (rest : List Nat), isTerm t1 = true → isTerm t2 = true →
      countSentences (t1 :: t2 :: rest) = 2 + countSentences rest) ∧
    (∀ t : Nat, isTerm t = true → countSentences [t] = 1) ∧
    countSentences helloWorldBytes = 2 ∧
    countSentences stopHeSaidBytes = 2 := by
  refine ⟨countSentences_eq_countP, ?_, ?_, ?_, by decide, by decide⟩
  · intro t q rest ht hq
    refine countSentences_term_quote rest ht ?_
    revert hq
    simp [isQuote]
    omega
  · intro t1 t2 rest h1 h2
    have hq2 : isQuote t2 = false := by
      revert h2
      simp [isTerm, isQuote]
      omega
    rw [countSentences_eq_countP, countSentences_eq_countP,
      countP_isTerm_cons, countP_isTerm_cons]
    simp [h1, h2]
    omega
  · intro t ht
    exact countSentences_single_term ht

theorem claim_C3_witness :
    countSentences [46, 39] = 1 + countSentences [] ∧
    countSentences [63, 33] = 2 + countSentences [] ∧
    countSentences [33] = 1 :=
  ⟨claim_C3_sentence_count.2.1 46 39 [] (by decide) (by decide),
   claim_C3_sentence_count.2.2.1 63 33 [] (by decide) (by decide),
   claim_C3_sentence_count.2.2.2.1 33 (by decide)⟩

/-- C4: `countQuotes` counts one segment per opening quote that has a
same-kind closer later, resuming after the closer; an opener with no closer
contributes nothing and scanning resumes at the next byte; the two concrete
examples give 2 and 0. -/
theorem claim_C4_quote_count :
    (∀ (q : Nat) (pre post : List Nat), isQuote q = true → q ∉ pre →
      countQuotes (q :: (pre ++ q :: post)) = 1 + countQuotes post) ∧
    (∀ (q : Nat) (rest : List Nat), isQuote q = true → q ∉ rest →
      countQuotes (q :: rest) = countQuotes rest) ∧
    (∀ (c : Nat) (rest : List Nat), isQuote c = false →
      countQuotes (c :: rest) = countQuotes rest) ∧
    countQuotes heSaidBytes = 2 ∧
    countQuotes unterminatedBytes = 0 := by
  refine ⟨?_, ?_, ?_, ?_, ?_⟩
  · intro q pre post hq hpre
    exact countQuotes_cons_found hq (findClose_append post pre hpre)
  · intro q rest hq hrest
    exact countQuotes_cons_none hq (findClose_of_not_mem hrest)
  · intro c rest hc
    exact countQuotes_cons_nonquote rest hc
  · simp [heSaidBytes, countQuotes, findClose]
  · simp [unterminatedBytes, countQuotes, findClose]

theorem claim_C4_witness :
    countQuotes (34 :: ([104, 105] ++ 34 :: [])) = 1 + countQuotes [] ∧
    countQuotes (34 :: [111, 111, 112, 115]) = countQuotes [111, 111, 112, 115] :=
  ⟨claim_C4_quote_count.1 34 [104, 105] [] (by decide) (by decide),
   claim_C4_quote_count.2.1 34 [111, 111, 112, 115] (by decide) (by decide)⟩

/-- C5: `fastStrLen` returns exactly the number of bytes before the NUL
terminator — on any memory whose first NUL at or after `start` is at
`start + n` it agrees with the naive byte-at-a-time search and returns `n`;
in particular on a list of nonzero bytes placed at any address it returns
the list's length. -/
theorem claim_C5_fastStrLen_equiv :
    (∀ (mem : Nat → Nat) (start n fuel : Nat),
      (∀ i, mem i < 256) → mem (start + n) = 0 →
      (∀ m, m < n → mem (start + m) ≠ 0) → n + 1 ≤ fuel →
      fastStrLenAux mem start start fuel = naiveStrLen mem start fuel ∧
      fastStrLenAux mem start start fuel = some n) ∧
    (∀ (l : List Nat) (a : Nat), (∀ c ∈ l, 0 < c ∧ c < 256) →
      fastStrLen l a = some l.length ∧
      fastStrLen l a = naiveStrLen (memOf l a) a (l.length + 17)) := by
  constructor
  · intro mem start n fuel hm hz hnz hf
    have hfast : fastStrLenAux mem start start fuel = some ((start + n) - start) :=
      fastStrLenAux_correct mem hm start (start + n) hz
        (fun q hq1 hq2 => by
          have := hnz (q - start) (by omega)
          rw [show start + (q - start) = q by omega] at this
          exact this)
        fuel start le_rfl (by omega) (by omega)
    have hnaive : naiveStrLen mem start fuel = some n := by
      unfold naiveStrLen
      rw [scanZero_correct mem fuel n start hz hnz hf]
      simp
    rw [show (start + n) - start = n by omega] at hfast
    exact ⟨by rw [hfast, hnaive], hfast⟩
  · intro l a hl
    exact ⟨fastStrLen_eq_length l a hl,
      by rw [fastStrLen_eq_length l a hl, naiveStrLen_eq_length l a _ hl (by omega)]⟩

theorem claim_C5_witness :
    fastStrLen [104, 105, 106] 5 = some 3 ∧
    fastStrLen [104, 105, 106] 5
      = naiveStrLen (memOf [104, 105, 106] 5) 5 (3 + 17) :=
  (claim_C5_fastStrLen_equiv.2 [104, 105, 106] 5 (by decide))

/-- C6: the uppercase count plus the lowercase count of `countCases` equals
`countLetters` (every ASCII letter is exactly one of upper or lower, and
non-letters are neither). -/
theorem claim_C6_case_partition :
    ∀ s : List Nat,
      (countCases s).1 + (countCases s).2 ≤ countLetters s ∧
      (countCases s).1 + (countCases s).2 = countLetters s := by
  intro s
  exact ⟨le_of_eq (countCases_add_eq_countLetters s), countCases_add_eq_countLetters s⟩

/-- C7: letters + digits + specials never exceed the length, with equality
exactly when every byte falls into exactly one of the three (disjoint)
categories. -/
theorem claim_C7_category_partition :
    ∀ s : List Nat,
      countLetters s + countNumbers s + countSpecialSigns s ≤ s.length ∧
      (countLetters s + countNumbers s + countSpecialSigns s = s.length ↔
        ∀ c ∈ s, categoryCount c = 1) := by
  intro s
  have hmap : ∀ x ∈ s.map categoryCount, x ≤ 1 := by
    intro x hx
    simp only [List.mem_map] at hx
    obtain ⟨c, _, rfl⟩ := hx
    exact categoryCount_le_one c
  have h := sum_le_length_of_le_one (s.map categoryCount) hmap
  rw [List.length_map] at h
  rw [three_counts_eq]
  refine ⟨h.1, ?_⟩
  rw [h.2]
  constructor
  · intro hall c hc
    exact hall (categoryCount c) (List.mem_map_of_mem _ hc)
  · intro hall x hx
    simp only [List.mem_map] at hx
    obtain ⟨c, hc, rfl⟩ := hx
    exact hall c hc

theorem claim_C7_witness :
    countLetters [97, 53, 33] + countNumbers [97, 53, 33]
        + countSpecialSigns [97, 53, 33] ≤ 3 :=
  (claim_C7_category_partition [97, 53, 33]).1

/-- C8 (counterexample): an invocation consisting only of the recognized
flag `--count-words` parses successfully with zero non-option arguments,
exits 0 with no reports — but the help text is NOT printed (the code only
prints help for `argc < 2` or an explicit `--help`). -/
theorem claim_C8_counterexample :
    parseArgs [optCountWords] {} = ParseResult.ok { countWordsFlag := true } [] ∧
    runMain [optCountWords] = ⟨0, false, 0⟩ ∧
    (runMain [optCountWords]).helpShown = false := by
  refine ⟨by decide, by decide, by decide⟩

/-- C8 (amended): an invocation with no arguments at all prints the help
text and exits 0 with no reports; an invocation whose parsing succeeds with
zero non-option arguments but at least one flag exits 0 with no reports but
WITHOUT printing the help text; `--help` during parsing prints the help
text and exits 0 with no reports. -/
theorem claim_C8_amended_help :
    runMain [] = ⟨0, true, 0⟩ ∧
    (∀ (args : List (List Nat)) (fl : Flags), args ≠ [] →
      parseArgs args {} = ParseResult.ok fl [] →
      runMain args = ⟨0, false, 0⟩) ∧
    (∀ args : List (List Nat), parseArgs args {} = ParseResult.help →
      runMain args = ⟨0, true, 0⟩) := by
  refine ⟨by decide, ?_, ?_⟩
  · intro args fl hne hp
    match args with
    | [] => exact absurd rfl hne
    | a :: rest' =>
      simp [runMain, hp]
  · intro args hp
    match args with
    | [] => simp [parseArgs] at hp
    | a :: rest' =>
      simp [runMain, hp]

theorem claim_C8_witness :
    runMain [optCountWords] = ⟨0, false, 0⟩ :=
  claim_C8_amended_help.2.1 [optCountWords] { countWordsFlag := true }
    (by decide) (by decide)

/-- C9: two immediately adjacent identical quote bytes form an empty quoted
segment: any string containing such a pair has a positive quote count, a
pair at the scan point counts exactly one segment (resuming after it), and
the concrete examples `''` and `'''` both count 1. -/
theorem claim_C9_adjacent_quotes :
    (∀ (q : Nat) (u v : List Nat), isQuote q = true →
      1 ≤ countQuotes (u ++ q :: q :: v)) ∧
    (∀ (q : Nat) (v : List Nat), isQuote q = true →
      countQuotes (q :: q :: v) = 1 + countQuotes v) ∧
    countQuotes [39, 39] = 1 ∧
    countQuotes [39, 39, 39] = 1 := by
  refine ⟨?_, ?_, ?_, ?_⟩
  · intro q u v hq
    exact countQuotes_pos_of_adjacent hq u v
  · intro q v hq
    exact countQuotes_adjacent_pair v hq
  · simp [countQuotes, findClose]
  · simp [countQuotes, findClose]

theorem claim_C9_witness :
    1 ≤ countQuotes ([97] ++ 39 :: 39 :: []) ∧
    countQuotes (34 :: 34 :: [98]) = 1 + countQuotes [98] :=
  ⟨claim_C9_adjacent_quotes.1 39 [97] [] (by decide),
   claim_C9_adjacent_quotes.2.1 34 [98] (by decide)⟩

/-- C10: the is-a-file probe is bare existence (`access(path, F_OK)`), so
it is true for any existing path — directories and unreadable files
included — and with the file-content metric enabled the reported length for
such a path is whatever `getFileContentLength` yields (0 when the path
cannot be opened). -/
theorem claim_C10_file_probe :
    (∀ (fs : FileSystem) (p : List Nat), isFilePath fs p = (fs p).isSome) ∧
    (∀ (fs : FileSystem) (p : List Nat) (e : FileEntry) (addr : Nat),
      fs p = some e →
      isFilePath fs p = true ∧
      effectiveLength fs true p addr = getFileContentLength fs p ∧
      (e.openable = false → getFileContentLength fs p = 0)) := by
  constructor
  · intro fs p
    rfl
  · intro fs p e addr he
    have hf : isFilePath fs p = true := by simp [isFilePath, he]
    refine ⟨hf, ?_, ?_⟩
    · unfold effectiveLength
      rw [hf]
      simp
    · intro hop
      simp [getFileContentLength, he, hop]

theorem claim_C10_witness :
    isFilePath unopenableFs [97] = true ∧
    effectiveLength unopenableFs true [97] 0 = getFileContentLength unopenableFs [97] :=
  ⟨(claim_C10_file_probe.2 unopenableFs [97] ⟨false, 0⟩ 0 rfl).1,
   (claim_C10_file_probe.2 unopenableFs [97] ⟨false, 0⟩ 0 rfl).2.1⟩

end Clen
